import Mathlib

/-!
Verification of the parallel S3 range-download engine
(`s3-mp-downloader/s3-mp-download.py`) against its natural-language
specification.  Each Python function relevant to the claims is embedded
as a Lean definition translated from the source; theorems below settle
the claims.

Modelling conventions:
* Python integers are arbitrary-precision, so byte offsets are modelled
  as `ℤ` (ranges) or `ℕ` (sizes, counters).  `math.ceil(1. * a / b)` is
  modelled as exact ceiling division (the float detour only loses
  precision above 2^53, outside the behaviour the claims address).
* `time.time()` floats are modelled as `ℚ`.
* The shared `multiprocessing` state (`queue`, `stop_event`) is modelled
  as explicit state / environment parameters.
-/

namespace S3MPDownload

/-! ## RangePlanner: `gen_byte_ranges(size, num_parts)` (source lines 157-165)

```python
def gen_byte_ranges(size, num_parts):
    part_size = int(ceil(1. * size / num_parts))
    for i in range(num_parts):
        start = part_size * i
        end = min(part_size * (i + 1) - 1, size - 1)
        yield (start, end)
```
-/

/-- `part_size = int(ceil(1. * size / num_parts))`, as exact ceiling division. -/
def part_size (size num_parts : ℕ) : ℕ :=
  (size + num_parts - 1) / num_parts

/-- `start = part_size * i` for part `i`. -/
def part_start (size num_parts i : ℕ) : ℤ :=
  (part_size size num_parts : ℤ) * i

/-- `end = min(part_size * (i + 1) - 1, size - 1)` for part `i`. -/
def part_end (size num_parts i : ℕ) : ℤ :=
  min ((part_size size num_parts : ℤ) * (i + 1) - 1) ((size : ℤ) - 1)

/-- The full list of `(start, end)` pairs the generator yields. -/
def gen_byte_ranges (size num_parts : ℕ) : List (ℤ × ℤ) :=
  (List.range num_parts).map fun i =>
    (part_start size num_parts i, part_end size num_parts i)

/-! Arithmetic facts about `part_size`. -/

theorem part_size_pos (size num_parts : ℕ) (hs : 0 < size) (hn : 0 < num_parts) :
    1 ≤ part_size size num_parts := by
  unfold part_size
  have h1 : num_parts ≤ size + num_parts - 1 := by omega
  exact (Nat.one_le_div_iff hn).mpr h1

theorem size_le_mul_part_size (size num_parts : ℕ) (hn : 0 < num_parts) :
    size ≤ num_parts * part_size size num_parts := by
  unfold part_size
  have hmod := Nat.div_add_mod (size + num_parts - 1) num_parts
  have hlt : (size + num_parts - 1) % num_parts < num_parts := Nat.mod_lt _ hn
  omega

/-- Bridge between a mapped list sum over `List.range` and a `Finset.range` sum. -/
theorem list_range_map_sum (f : ℕ → ℤ) (n : ℕ) :
    ((List.range n).map f).sum = ∑ i in Finset.range n, f i := by
  induction n with
  | zero => simp
  | succ m ih => simp [List.range_succ, Finset.sum_range_succ, ih]


/-! ## Claim theorems for the RangePlanner -/

/-- C1 (counterexample): at `size = 5`, `num_parts = 4` the planner yields
`[(0,1),(2,3),(4,4),(6,4)]`; the last range is inverted (`end < start`),
contiguity breaks (`6 ≠ 4 + 1`) and the signed lengths sum to `4 ≠ 5`,
refuting the claim that for every positive part parameter the lengths sum
to the object size. -/
theorem c1_counterexample :
    ((gen_byte_ranges 5 4).map (fun r => r.2 - r.1 + 1)).sum ≠ (5 : ℤ) ∧
    (gen_byte_ranges 5 4)[3]? = some (6, 4) := by
  constructor
  · decide
  · decide

/-- C1 (amended): for every `size > 0` and `num_parts > 0` such that every
planned part is nonempty — `(num_parts - 1) * part_size < size` — the planner
returns `num_parts` ordered ranges that are valid (`start ≤ end`), contiguous,
non-overlapping, whose union covers exactly `[0, size-1]`, and whose lengths
sum to `size`. -/
theorem c1_amended (size num_parts : ℕ) (hs : 0 < size) (hn : 0 < num_parts)
    (hfit : (num_parts - 1) * part_size size num_parts < size) :
    (gen_byte_ranges size num_parts).length = num_parts ∧
    (∀ i, i < num_parts → part_start size num_parts i ≤ part_end size num_parts i) ∧
    (∀ i, i + 1 < num_parts →
      part_start size num_parts (i + 1) = part_end size num_parts i + 1) ∧
    (∀ i j, i < j → j < num_parts →
      part_end size num_parts i < part_start size num_parts j) ∧
    (∀ b : ℤ, (0 ≤ b ∧ b ≤ (size : ℤ) - 1) ↔
      ∃ i, i < num_parts ∧ part_start size num_parts i ≤ b ∧
        b ≤ part_end size num_parts i) ∧
    ((gen_byte_ranges size num_parts).map (fun r => r.2 - r.1 + 1)).sum = (size : ℤ) := by
  have hps1 : 1 ≤ part_size size num_parts := part_size_pos size num_parts hs hn
  have hcap : size ≤ num_parts * part_size size num_parts :=
    size_le_mul_part_size size num_parts hn
  have hp1 : (1 : ℤ) ≤ (part_size size num_parts : ℤ) := by exact_mod_cast hps1
  have key : ∀ i, i < num_parts → part_size size num_parts * i < size := by
    intro i hi
    calc part_size size num_parts * i
        ≤ part_size size num_parts * (num_parts - 1) :=
          Nat.mul_le_mul_left _ (by omega)
      _ = (num_parts - 1) * part_size size num_parts := Nat.mul_comm _ _
      _ < size := hfit
  have keyZ : ∀ i, i < num_parts →
      (part_size size num_parts : ℤ) * i < (size : ℤ) := by
    intro i hi; exact_mod_cast key i hi
  have hne : ∀ i, i < num_parts →
      part_start size num_parts i ≤ part_end size num_parts i := by
    intro i hi
    have h1 := keyZ i hi
    have e : (part_size size num_parts : ℤ) * ((i : ℤ) + 1) =
        (part_size size num_parts : ℤ) * (i : ℤ) + (part_size size num_parts : ℤ) := by
      ring
    unfold part_start part_end
    rw [le_min_iff]
    exact ⟨by omega, by omega⟩
  have hend : ∀ i, i + 1 < num_parts →
      part_end size num_parts i =
        (part_size size num_parts : ℤ) * ((i : ℤ) + 1) - 1 := by
    intro i hi
    have h1 := keyZ (i + 1) hi
    push_cast at h1
    have hle : (part_size size num_parts : ℤ) * ((i : ℤ) + 1) - 1 ≤ (size : ℤ) - 1 := by
      omega
    unfold part_end
    rw [min_eq_left hle]
  refine ⟨by simp [gen_byte_ranges], hne, ?_, ?_, ?_, ?_⟩
  · -- contiguity
    intro i hi
    rw [hend i hi]
    unfold part_start
    push_cast
    ring
  · -- strict ordering / disjointness
    intro i j hij hj
    have h1 : part_end size num_parts i ≤
        (part_size size num_parts : ℤ) * ((i : ℤ) + 1) - 1 := by
      unfold part_end; exact min_le_left _ _
    have h2 : (part_size size num_parts : ℤ) * ((i : ℤ) + 1) ≤
        (part_size size num_parts : ℤ) * (j : ℤ) := by
      have hn2 : part_size size num_parts * (i + 1) ≤ part_size size num_parts * j :=
        Nat.mul_le_mul_left _ (by omega)
      exact_mod_cast hn2
    unfold part_start
    omega
  · -- coverage: union is exactly [0, size-1]
    intro b
    constructor
    · rintro ⟨hb0, hbs⟩
      obtain ⟨bn, rfl⟩ := Int.eq_ofNat_of_zero_le hb0
      have hbn : bn < size := by exact_mod_cast (by omega : (bn : ℤ) < (size : ℤ))
      have hpspos : 0 < part_size size num_parts := hps1
      refine ⟨bn / part_size size num_parts, ?_, ?_, ?_⟩
      · exact (Nat.div_lt_iff_lt_mul hpspos).mpr (lt_of_lt_of_le hbn hcap)
      · unfold part_start
        have h1 : part_size size num_parts * (bn / part_size size num_parts) ≤ bn := by
          rw [Nat.mul_comm]; exact Nat.div_mul_le_self bn _
        exact_mod_cast h1
      · unfold part_end
        rw [le_min_iff]
        have hdm := Nat.div_add_mod bn (part_size size num_parts)
        have hmlt : bn % part_size size num_parts < part_size size num_parts :=
          Nat.mod_lt _ hpspos
        have hnat : bn < part_size size num_parts * (bn / part_size size num_parts + 1) := by
          have e : part_size size num_parts * (bn / part_size size num_parts + 1) =
              part_size size num_parts * (bn / part_size size num_parts) +
                part_size size num_parts := by ring
          omega
        have hnatZ : (bn : ℤ) <
            (part_size size num_parts : ℤ) *
              (((bn / part_size size num_parts : ℕ) : ℤ) + 1) := by
          exact_mod_cast hnat
        constructor
        · omega
        · omega
    · rintro ⟨i, hi, h1, h2⟩
      have h0 : (0 : ℤ) ≤ part_start size num_parts i := by
        unfold part_start; positivity
      have h3 : part_end size num_parts i ≤ (size : ℤ) - 1 := min_le_right _ _
      exact ⟨le_trans h0 h1, le_trans h2 h3⟩
  · -- lengths sum to size
    unfold gen_byte_ranges
    rw [List.map_map]
    have hfun : ((fun r : ℤ × ℤ => r.2 - r.1 + 1) ∘ fun i =>
        (part_start size num_parts i, part_end size num_parts i)) =
        fun i => part_end size num_parts i - part_start size num_parts i + 1 := rfl
    rw [hfun, list_range_map_sum]
    obtain ⟨m, rfl⟩ : ∃ m, num_parts = m + 1 := ⟨num_parts - 1, by omega⟩
    rw [Finset.sum_range_succ]
    have hconst : ∀ i ∈ Finset.range m,
        part_end size (m + 1) i - part_start size (m + 1) i + 1 =
        (part_size size (m + 1) : ℤ) := by
      intro i hi
      have hi' : i + 1 < m + 1 := by have := Finset.mem_range.mp hi; omega
      rw [hend i hi']
      unfold part_start
      ring
    rw [Finset.sum_congr rfl hconst, Finset.sum_const, Finset.card_range]
    have hstep : (size : ℤ) - 1 ≤
        (part_size size (m + 1) : ℤ) * ((m : ℤ) + 1) - 1 := by
      have hc : (size : ℤ) ≤ ((m : ℤ) + 1) * (part_size size (m + 1) : ℤ) := by
        exact_mod_cast hcap
      have e : (part_size size (m + 1) : ℤ) * ((m : ℤ) + 1) =
          ((m : ℤ) + 1) * (part_size size (m + 1) : ℤ) := by ring
      omega
    have hlast : part_end size (m + 1) m = (size : ℤ) - 1 := by
      unfold part_end
      rw [min_eq_right hstep]
    rw [hlast]
    unfold part_start
    rw [nsmul_eq_mul]
    ring

/-- C1 witness: at `size = 100`, `num_parts = 10` the hypotheses hold and the
planned lengths sum to 100. -/
theorem c1_amended_witness :
    (10 - 1) * part_size 100 10 < 100 ∧
    ((gen_byte_ranges 100 10).map (fun r => r.2 - r.1 + 1)).sum = (100 : ℤ) := by
  refine ⟨by decide, ?_⟩
  exact (c1_amended 100 10 (by decide) (by decide) (by decide)).2.2.2.2.2

/-- C7: part `i` (0-indexed) produced by the planner spans exactly
`[i*partSize, min((i+1)*partSize - 1, size-1)]`, where `partSize` is the
planner's per-part byte length `part_size size num_parts`. -/
theorem c7_part_formula (size num_parts i : ℕ) (h : i < num_parts) :
    (gen_byte_ranges size num_parts)[i]? =
      some ((part_size size num_parts : ℤ) * i,
        min ((part_size size num_parts : ℤ) * (i + 1) - 1) ((size : ℤ) - 1)) := by
  simp [gen_byte_ranges, part_start, part_end, h]

/-- C7 witness: at `size = 100`, `num_parts = 3`, part `2` matches the formula
(`part_size 100 3 = 34`, range `(68, 99)`). -/
theorem c7_part_formula_witness :
    2 < 3 ∧
    (gen_byte_ranges 100 3)[2]? =
      some ((part_size 100 3 : ℤ) * 2,
        min ((part_size 100 3 : ℤ) * (2 + 1) - 1) ((100 : ℤ) - 1)) :=
  ⟨by decide, c7_part_formula 100 3 2 (by decide)⟩

/-! ## ProgressAggregator: `progress_monitor` speed calculation (source lines 208-215)

```python
current_time = time.time()
dq.append((current_time, downloaded))     # deque(maxlen=20)
old_time, old_bytes = dq[0]
time_diff = current_time - old_time
bytes_diff = downloaded - old_bytes
speed = bytes_diff / time_diff if time_diff > 0 else 0
```
-/

/-- `collections.deque(maxlen=20).append`: push right, dropping the oldest
entry when the window is full. -/
def dq_append (dq : List (ℚ × ℚ)) (x : ℚ × ℚ) : List (ℚ × ℚ) :=
  if dq.length < 20 then dq ++ [x] else dq.tail ++ [x]

/-- `speed = bytes_diff / time_diff if time_diff > 0 else 0`. -/
def speed_calc (time_diff bytes_diff : ℚ) : ℚ :=
  if time_diff > 0 then bytes_diff / time_diff else 0

/-- One monitor sample: append `(current_time, downloaded)` to the window,
read the oldest entry `dq[0]`, and compute the moving-average speed. -/
def monitor_speed (dq : List (ℚ × ℚ)) (current_time downloaded : ℚ) : ℚ :=
  let dq2 := dq_append dq (current_time, downloaded)
  let old := dq2.headD (0, 0)
  speed_calc (current_time - old.1) (downloaded - old.2)

/-- C8: whenever the elapsed time between the oldest and the newest window
entries is zero, the aggregator's speed computation yields 0 — not an error
and not infinity (the division is guarded by `time_diff > 0`). -/
theorem c8_zero_elapsed_speed (dq : List (ℚ × ℚ)) (t d : ℚ)
    (h : ((dq_append dq (t, d)).headD (0, 0)).1 = t) :
    monitor_speed dq t d = 0 := by
  unfold monitor_speed speed_calc
  dsimp only
  rw [h]
  simp

/-- C8 witness: a fresh window sampled at time 1 with 5 bytes downloaded has
zero elapsed time and reports speed 0. -/
theorem c8_zero_elapsed_speed_witness :
    ((dq_append [] ((1 : ℚ), (5 : ℚ))).headD (0, 0)).1 = 1 ∧
    monitor_speed [] 1 5 = 0 :=
  ⟨by decide, c8_zero_elapsed_speed [] 1 5 (by decide)⟩

/-! ## DownloadCoordinator: `main` (source lines 236-324)

The pre-dispatch phase of `main` is embedded as a pure function from its
validation-relevant inputs to the raised-or-returned outcome together with
the ordered trace of observable effects (file operations, network calls,
pool/monitor startup, range-plan dispatch).  Positional writes performed by
the already-dispatched workers are modelled separately (`do_part_download`).

```python
split_rs = urllib.parse.urlsplit(src)
if split_rs.scheme != "s3": raise ValueError(...)
if os.path.isdir(dest): dest = os.path.join(dest, filename)
if os.path.exists(dest):
    if force: os.remove(dest)
    else: raise ValueError("Destination file '%s' exists, ...")
...
try:
    head = s3.head_object(...); size = int(head['ContentLength'])
except botocore.exceptions.ClientError as e:
    if e.response['Error']['Code'] == "404": raise ValueError("... does not exist.")
    elif e.response['Error']['Code'] == "403": raise ValueError("Access Denied...")
    else: raise e
if size < 1024 * 1024:
    s3.download_file(...); return
fd = os.open(dest, os.O_CREAT | os.O_WRONLY); os.close(fd)
size_mb = size / 1024 / 1024
if split == 0: split = 32
num_parts = int(ceil(size_mb / split))
if num_parts < 1: num_parts = 1
... monitor thread if show_progress ...
pool = Pool(...); result = pool.map_async(do_part_download, arg_iterator(num_parts))
```

The `isdir` branch merely rewrites the destination path string; the model
takes the existence of the final destination path directly.  Python quotes
the interpolated path/URI inside the error messages; the messages are kept
here without the interpolation, which does not affect their distinctness.
-/

def existsErrMsg : String := "Destination file exists, specify -f to overwrite"
def notS3Msg : String := "is not an S3 url"
def notFoundMsg : String := "does not exist."
def accessDeniedMsg : String := "Access Denied. If this is a public file, try --public"

/-- Outcome of the external `HeadObject` call: a size, or a `ClientError`
carrying an HTTP status code string. -/
inductive HeadResult where
  | ok (size : ℕ)
  | clientError (code : String)
deriving DecidableEq

/-- What `main` does up to (and including) dispatching the worker pool:
returns after the small-object direct download, reaches the parallel
dispatch, or raises (`ValueError` with a message, or the re-raised
`ClientError`). -/
inductive MainOutcome where
  | completedSmall
  | dispatched (num_parts : ℕ)
  | valueError (msg : String)
  | clientErrorRaised (code : String)
deriving DecidableEq

/-- Observable effects of the pre-dispatch phase, in program order. -/
inductive Eff where
  | removeDest
  | headCall
  | directDownload
  | createFile
  | monitorStart
  | poolStart
  | dispatch (ranges : List (ℤ × ℤ))
deriving DecidableEq

/-- `size_mb = size / 1024 / 1024` (exact rational in place of the float). -/
def size_mb (size : ℕ) : ℚ := (size : ℚ) / 1024 / 1024

/-- `if split == 0: split = 32` — the value actually used as the divisor. -/
def effective_split (s : ℕ) : ℕ := if s = 0 then 32 else s

/-- `num_parts = int(ceil(size_mb / split)); if num_parts < 1: num_parts = 1`. -/
def num_parts_calc (size s : ℕ) : ℤ :=
  let np := ⌈size_mb size / (effective_split s : ℚ)⌉
  if np < 1 then 1 else np

/-- The pre-dispatch phase of `main`, with `s` the `--split` option. -/
def main (srcScheme : String) (destExists force : Bool) (head : HeadResult)
    (s : ℕ) (show_progress : Bool) : MainOutcome × List Eff :=
  if srcScheme ≠ "s3" then (.valueError notS3Msg, [])
  else if destExists && !force then (.valueError existsErrMsg, [])
  else
    let pre : List Eff := if destExists then [.removeDest] else []
    match head with
    | .clientError code =>
      if code = "404" then (.valueError notFoundMsg, pre ++ [.headCall])
      else if code = "403" then (.valueError accessDeniedMsg, pre ++ [.headCall])
      else (.clientErrorRaised code, pre ++ [.headCall])
    | .ok size =>
      if size < 1024 * 1024 then (.completedSmall, pre ++ [.headCall, .directDownload])
      else
        let np := (num_parts_calc size s).toNat
        (.dispatched np,
          pre ++ [.headCall, .createFile] ++
            (if show_progress then [.monitorStart] else []) ++
            [.poolStart, .dispatch (gen_byte_ranges size np)])

/-- C10: if the split option is 0, the coordinator substitutes 32 before
computing the number of parts — the part count is exactly the one a 32 MB
split would give, and the divisor actually used is never zero. -/
theorem c10_split_zero :
    (∀ size, num_parts_calc size 0 = num_parts_calc size 32) ∧
    (∀ s, effective_split s ≠ 0) := by
  constructor
  · intro size
    simp [num_parts_calc, effective_split]
  · intro s
    unfold effective_split
    by_cases h : s = 0 <;> simp [h]

/-- C5: when the destination exists and `force` is false, `main` fails with
the destination-exists `ValueError` and with an empty effect trace: no file
was removed, created or written, and no network call was made. -/
theorem c5_dest_exists (head : HeadResult) (s : ℕ) (sp : Bool) :
    main "s3" true false head s sp = (.valueError existsErrMsg, []) := by
  simp [main]

/-- C3: a Head `ClientError` with code 404 raises the not-found `ValueError`,
code 403 raises the access-denied `ValueError`, the two messages differ, and
any other code is re-raised as the original `ClientError` — so the three
outcomes are pairwise distinguishable. -/
theorem c3_head_errors (s : ℕ) (sp : Bool) (code : String)
    (h4 : code ≠ "404") (h3 : code ≠ "403") :
    (main "s3" false false (.clientError "404") s sp).1 = .valueError notFoundMsg ∧
    (main "s3" false false (.clientError "403") s sp).1 = .valueError accessDeniedMsg ∧
    MainOutcome.valueError notFoundMsg ≠ MainOutcome.valueError accessDeniedMsg ∧
    (main "s3" false false (.clientError code) s sp).1 = .clientErrorRaised code ∧
    MainOutcome.clientErrorRaised code ≠ MainOutcome.valueError notFoundMsg ∧
    MainOutcome.clientErrorRaised code ≠ MainOutcome.valueError accessDeniedMsg := by
  refine ⟨by simp [main], by simp [main], by decide, ?_, by simp, by simp⟩
  simp [main, h4, h3]

/-- C3 witness: code "500" is neither 404 nor 403; it is re-raised and is
distinguishable from the not-found outcome. -/
theorem c3_head_errors_witness :
    ("500" : String) ≠ "404" ∧ ("500" : String) ≠ "403" ∧
    (main "s3" false false (.clientError "500") 64 true).1 = .clientErrorRaised "500" ∧
    MainOutcome.clientErrorRaised "500" ≠ MainOutcome.valueError notFoundMsg := by
  refine ⟨by decide, by decide, ?_, ?_⟩
  · exact (c3_head_errors 64 true "500" (by decide) (by decide)).2.2.2.1
  · exact (c3_head_errors 64 true "500" (by decide) (by decide)).2.2.2.2.1

/-- C6: an object below the 1 MiB small-object threshold takes the direct
single-stream path — `main` returns right after the single transfer, with no
worker pool started and no range plan generated or dispatched. -/
theorem c6_small_object (size s : ℕ) (sp : Bool) (h : size < 1024 * 1024) :
    main "s3" false false (.ok size) s sp = (.completedSmall, [.headCall, .directDownload]) ∧
    Eff.poolStart ∉ (main "s3" false false (.ok size) s sp).2 ∧
    (∀ rs, Eff.dispatch rs ∉ (main "s3" false false (.ok size) s sp).2) := by
  have hm : main "s3" false false (.ok size) s sp =
      (.completedSmall, [.headCall, .directDownload]) := by
    simp [main, h]
  refine ⟨hm, ?_, ?_⟩
  · rw [hm]; simp
  · intro rs; rw [hm]; simp

/-- C6 witness: a 500 KB object (500000 bytes < 1 MiB) takes the direct path. -/
theorem c6_small_object_witness :
    500000 < 1024 * 1024 ∧
    main "s3" false false (.ok 500000) 64 true =
      (.completedSmall, [.headCall, .directDownload]) :=
  ⟨by decide, (c6_small_object 500000 64 true (by decide)).1⟩


/-! ## PartWorker: `do_part_download` (source lines 83-155)

```python
def do_part_download(args):
    bucket_name, key_name, fname, min_byte, max_byte, split, secure, max_tries, \
        current_tries, is_public, region, queue, stop_event = args
    if stop_event.is_set():
        return
    ...client/config creation...
    fd = os.open(fname, os.O_WRONLY); os.lseek(fd, min_byte, os.SEEK_SET)
    try:
        chunk_size = 1024 * 1024
        resp = s3_client.get_object(..., Range=range_header)
        for chunk in resp['Body'].iter_chunks(chunk_size=chunk_size):
            if stop_event.is_set(): break
            if not chunk: break
            os.write(fd, chunk)
            if queue is not None: queue.put(len(chunk))
    except Exception as err:
        if stop_event.is_set(): os.close(fd); return
        if current_tries > max_tries: raise err
        else:
            time.sleep(3); os.close(fd)
            return do_part_download((..., current_tries + 1, ...))
    os.close(fd)
```

The embedding makes the shared state explicit: the destination file is a
partial map from byte offset to byte value, the `queue.put(len(chunk))`
progress reports accumulate in a `credited` counter, and each
`get_object` call bumps a `netCalls` counter.  The `stop_event` flag is a
constant of the environment (the claims under verification only concern
runs where it is set before the start, or never set).  The environment
prescribes the chunk sequence the response stream yields and, per attempt
index, whether the attempt raises after streaming a given number of
chunks (`some k`) or streams to completion (`none`).  `min_byte` seeds
the write offset; `max_byte` only shapes the HTTP Range header and has no
other observable effect, so it is not a model parameter. -/
abbrev FileMap := ℕ → Option ℕ

/-- Observable worker-visible state: destination-file bytes, total progress
credited via the queue, and the number of `get_object` network calls. -/
structure WorkerSt where
  file : FileMap
  credited : ℕ
  netCalls : ℕ

/-- How one call of `do_part_download` ends: the function's ordinary `None`
return (`ret`) or a propagated exception (`raised`). -/
inductive WOutcome where
  | ret
  | raised
deriving DecidableEq

/-- Environment of one worker run (see the module comment above). -/
structure WorkerEnv where
  chunks : List (List ℕ)
  attemptFail : ℕ → Option ℕ
  stopSet : Bool

/-- `os.write(fd, chunk)` at the current offset. -/
def writeChunk (f : FileMap) (off : ℕ) (ch : List ℕ) : FileMap :=
  fun p => if off ≤ p ∧ p < off + ch.length then ch[p - off]? else f p

/-- The `for chunk in stream.iter_chunks(...)` loop of one attempt: checks
the stop flag, breaks on an empty chunk, writes at the running offset and
credits `len(chunk)`; returns the updated file and the credited total. -/
def writeChunks (stop : Bool) : FileMap → ℕ → List (List ℕ) → FileMap × ℕ
  | f, _, [] => (f, 0)
  | f, off, ch :: rest =>
    if stop then (f, 0)
    else if ch = [] then (f, 0)
    else
      let r := writeChunks stop (writeChunk f off ch) (off + ch.length) rest
      (r.1, ch.length + r.2)

/-- The worker, one call per attempt; the recursive call is the source's
`return do_part_download(new_args)` retry with `current_tries + 1`. -/
def do_part_download (env : WorkerEnv) (min_byte max_tries current_tries : ℕ)
    (st : WorkerSt) : WOutcome × WorkerSt :=
  if env.stopSet then (.ret, st)
  else
    let st1 : WorkerSt := { st with netCalls := st.netCalls + 1 }
    match env.attemptFail current_tries with
    | none =>
      let r := writeChunks env.stopSet st1.file min_byte env.chunks
      (.ret, { st1 with file := r.1, credited := st1.credited + r.2 })
    | some k =>
      let r := writeChunks env.stopSet st1.file min_byte (env.chunks.take k)
      let st2 : WorkerSt := { st1 with file := r.1, credited := st1.credited + r.2 }
      if env.stopSet then (.ret, st2)
      else if current_tries > max_tries then (.raised, st2)
      else do_part_download env min_byte max_tries (current_tries + 1) st2
  termination_by max_tries + 1 - current_tries

/-- True byte length of the assigned range's content. -/
def totalLen (env : WorkerEnv) : ℕ := env.chunks.flatten.length

/-- Progress credited by an attempt that streams `k` chunks before failing. -/
def creditTake (env : WorkerEnv) (k : ℕ) : ℕ :=
  ((env.chunks.take k).map List.length).sum

/-- Streaming nonempty chunks writes exactly the flattened content at the
running offsets, credits the summed lengths, and touches nothing below the
start offset. -/
theorem writeChunks_spec (cs : List (List ℕ)) (f : FileMap) (off : ℕ)
    (hne : ∀ c ∈ cs, c ≠ []) :
    (writeChunks false f off cs).2 = (cs.map List.length).sum ∧
    (∀ p, p < off → (writeChunks false f off cs).1 p = f p) ∧
    (∀ j, j < cs.flatten.length →
      (writeChunks false f off cs).1 (off + j) = cs.flatten[j]?) := by
  induction cs generalizing f off with
  | nil => simp [writeChunks]
  | cons ch rest ih =>
    have hch : ch ≠ [] := hne ch (by simp)
    have hne' : ∀ d ∈ rest, d ≠ [] := fun d hd => hne d (by simp [hd])
    obtain ⟨ih1, ih2, ih3⟩ := ih (writeChunk f off ch) (off + ch.length) hne'
    have hunf : writeChunks false f off (ch :: rest) =
        ((writeChunks false (writeChunk f off ch) (off + ch.length) rest).1,
         ch.length + (writeChunks false (writeChunk f off ch) (off + ch.length) rest).2) := by
      simp [writeChunks, hch]
    rw [hunf]
    refine ⟨by simp [ih1], ?_, ?_⟩
    · intro p hp
      rw [ih2 p (by omega)]
      unfold writeChunk
      rw [if_neg (by omega)]
    · intro j hj
      rw [List.flatten_cons] at hj ⊢
      rw [List.length_append] at hj
      by_cases hcase : j < ch.length
      · rw [ih2 (off + j) (by omega)]
        unfold writeChunk
        rw [if_pos (by omega)]
        rw [show off + j - off = j by omega]
        rw [List.getElem?_append]
        rw [if_pos hcase]
      · have h1 : off + j = (off + ch.length) + (j - ch.length) := by omega
        rw [h1, ih3 (j - ch.length) (by omega)]
        rw [List.getElem?_append]
        rw [if_neg (by omega)]

/-- A run whose attempts `t0 .. t0+n-1` fail (streaming `kf t` chunks each)
and whose attempt `t0+n ≤ max_tries` succeeds returns normally, writes the
full range content, credits the range length plus every failed attempt's
partial credit, and performs `n + 1` network calls. -/
theorem run_spec (env : WorkerEnv) (mb mt : ℕ) (kf : ℕ → ℕ)
    (hstop : env.stopSet = false)
    (hne : ∀ c ∈ env.chunks, c ≠ []) :
    ∀ (n t0 : ℕ) (st : WorkerSt),
      (∀ t, t0 ≤ t → t < t0 + n → env.attemptFail t = some (kf t)) →
      env.attemptFail (t0 + n) = none →
      t0 + n ≤ mt →
      (do_part_download env mb mt t0 st).1 = .ret ∧
      (do_part_download env mb mt t0 st).2.credited =
        st.credited + (∑ t in Finset.Ico t0 (t0 + n), creditTake env (kf t)) +
          totalLen env ∧
      (do_part_download env mb mt t0 st).2.netCalls = st.netCalls + n + 1 ∧
      (∀ j, j < totalLen env →
        (do_part_download env mb mt t0 st).2.file (mb + j) = env.chunks.flatten[j]?) := by
  intro n
  induction n with
  | zero =>
    intro t0 st hfail hsucc hb
    rw [Nat.add_zero] at hsucc
    obtain ⟨w1, w2, w3⟩ := writeChunks_spec env.chunks st.file mb hne
    have hunf : do_part_download env mb mt t0 st =
        (.ret, { file := (writeChunks false st.file mb env.chunks).1,
                 credited := st.credited + (writeChunks false st.file mb env.chunks).2,
                 netCalls := st.netCalls + 1 }) := by
      rw [do_part_download]
      rw [hstop]
      simp [hsucc]
    rw [hunf]
    refine ⟨rfl, ?_, rfl, ?_⟩
    · simp [w1, totalLen, List.length_flatten]
    · intro j hj
      exact w3 j (by simpa [totalLen] using hj)
  | succ n ih =>
    intro t0 st hfail hsucc hb
    have hf0 : env.attemptFail t0 = some (kf t0) := hfail t0 (le_refl _) (by omega)
    have htake : ∀ c ∈ env.chunks.take (kf t0), c ≠ [] :=
      fun c hcmem => hne c (List.take_subset _ _ hcmem)
    obtain ⟨w1, w2, w3⟩ :=
      writeChunks_spec (env.chunks.take (kf t0)) st.file mb htake
    have hguard : ¬ t0 > mt := by omega
    have hunf : do_part_download env mb mt t0 st =
        do_part_download env mb mt (t0 + 1)
          { file := (writeChunks false st.file mb (env.chunks.take (kf t0))).1,
            credited := st.credited + (writeChunks false st.file mb (env.chunks.take (kf t0))).2,
            netCalls := st.netCalls + 1 } := by
      rw [do_part_download]
      rw [hstop]
      simp [hf0, hguard]
    rw [hunf]
    have hres := ih (t0 + 1)
      { file := (writeChunks false st.file mb (env.chunks.take (kf t0))).1,
        credited := st.credited + (writeChunks false st.file mb (env.chunks.take (kf t0))).2,
        netCalls := st.netCalls + 1 }
      (fun t h1 h2 => hfail t (by omega) (by omega))
      (by rw [show t0 + 1 + n = t0 + (n + 1) by omega]; exact hsucc)
      (by omega)
    obtain ⟨r1, r2, r3, r4⟩ := hres
    refine ⟨r1, ?_, by rw [r3]; simp; omega, r4⟩
    rw [r2]
    have hpeel : ∑ t in Finset.Ico t0 (t0 + (n + 1)), creditTake env (kf t) =
        creditTake env (kf t0) +
          ∑ t in Finset.Ico (t0 + 1) (t0 + 1 + n), creditTake env (kf t) := by
      rw [show t0 + (n + 1) = t0 + 1 + n by omega]
      exact Finset.sum_eq_sum_Ico_succ_bot (by omega) _
    rw [hpeel]
    simp [w1, creditTake]
    omega

/-- An empty initial worker state. -/
def st0 : WorkerSt where
  file := fun _ => none
  credited := 0
  netCalls := 0

/-- C4 (amended): a worker observing the cancellation flag set before
starting performs no network call, writes nothing, credits nothing, and
returns immediately — but with the worker's ordinary `None` return value
(`ret`), not a distinct `Cancelled` outcome. -/
theorem c4_amended (env : WorkerEnv) (mb mt t : ℕ) (st : WorkerSt)
    (h : env.stopSet = true) :
    do_part_download env mb mt t st = (.ret, st) := by
  rw [do_part_download]
  rw [h]
  simp

/-- A worker environment whose cancellation flag is set from the start. -/
def stopEnv : WorkerEnv where
  chunks := [[1, 2]]
  attemptFail := fun _ => none
  stopSet := true

/-- The same environment with the flag clear; the single attempt succeeds. -/
def goEnv : WorkerEnv where
  chunks := [[1, 2]]
  attemptFail := fun _ => none
  stopSet := false

/-- C4 witness: concrete cancelled run — state untouched, ordinary return. -/
theorem c4_amended_witness :
    stopEnv.stopSet = true ∧ do_part_download stopEnv 0 5 0 st0 = (.ret, st0) :=
  ⟨rfl, c4_amended stopEnv 0 5 0 st0 rfl⟩

/-- C4 (counterexample): the claim says the worker "returns the Cancelled
outcome", a value distinct from other outcomes; in the code the
cancelled-before-start path plainly `return`s `None`, the same value a
fully successful run returns, so no distinct `Cancelled` outcome exists. -/
theorem c4_counterexample :
    (do_part_download stopEnv 0 5 0 st0).1 = .ret ∧
    (do_part_download goEnv 0 5 0 st0).1 = .ret ∧
    (do_part_download stopEnv 0 5 0 st0).1 = (do_part_download goEnv 0 5 0 st0).1 := by
  have h1 : (do_part_download stopEnv 0 5 0 st0).1 = .ret := by
    rw [do_part_download]; rfl
  have h2 : (do_part_download goEnv 0 5 0 st0).1 = .ret := by
    rw [do_part_download]; rfl
  exact ⟨h1, h2, by rw [h1, h2]⟩

/-- C2 (amended): a worker whose fetch fails `n ≤ maxAttempts` times and
then succeeds still writes the complete correct range content; the total
progress credited equals the range's true byte length plus the bytes
credited during the failed attempts — so retried bytes ARE double-counted
whenever a failed attempt streamed any chunk before failing. -/
theorem c2_amended (env : WorkerEnv) (mb mt n : ℕ) (kf : ℕ → ℕ) (st : WorkerSt)
    (hstop : env.stopSet = false)
    (hne : ∀ ch ∈ env.chunks, ch ≠ [])
    (hfail : ∀ t, t < n → env.attemptFail t = some (kf t))
    (hsucc : env.attemptFail n = none)
    (hn : n ≤ mt) :
    (do_part_download env mb mt 0 st).1 = .ret ∧
    (∀ j, j < totalLen env →
      (do_part_download env mb mt 0 st).2.file (mb + j) = env.chunks.flatten[j]?) ∧
    (do_part_download env mb mt 0 st).2.credited =
      st.credited + (∑ t in Finset.range n, creditTake env (kf t)) + totalLen env ∧
    (do_part_download env mb mt 0 st).2.netCalls = st.netCalls + n + 1 := by
  have h := run_spec env mb mt kf hstop hne n 0 st
    (fun t h1 h2 => hfail t (by omega)) (by simpa using hsucc) (by omega)
  obtain ⟨h1, h2, h3, h4⟩ := h
  refine ⟨h1, h4, ?_, h3⟩
  rw [h2]
  congr 1
  congr 1
  rw [Finset.range_eq_Ico]
  simp

/-- Environment for the C2 counterexample and witness: content `[1,2],[3]`
(3 bytes), attempt 0 raises after streaming the first chunk (2 bytes,
already credited), attempt 1 succeeds. -/
def cexEnv : WorkerEnv where
  chunks := [[1, 2], [3]]
  attemptFail := fun t => if t = 0 then some 1 else none
  stopSet := false

/-- C2 (counterexample): with one mid-stream failure the total credited is
5 although the range's true length is 3 — the claim's bound
`credited ≤ range length` is violated because the source pushes
`queue.put(len(chunk))` before knowing the attempt will fail and the retry
re-fetches and re-credits the whole range. -/
theorem c2_counterexample :
    (do_part_download cexEnv 0 5 0 st0).2.credited = 5 ∧
    totalLen cexEnv = 3 ∧
    ¬ ((do_part_download cexEnv 0 5 0 st0).2.credited ≤ totalLen cexEnv) := by
  have h := run_spec cexEnv 0 5 (fun _ => 1) rfl (by decide) 1 0 st0
    (by
      intro t h1 h2
      have ht : t = 0 := by omega
      subst ht
      rfl) rfl (by decide)
  have hcred : (do_part_download cexEnv 0 5 0 st0).2.credited = 5 := by
    rw [h.2.1]
    decide
  refine ⟨hcred, by decide, ?_⟩
  rw [hcred]
  decide

/-- C2 witness: the amended statement evaluated on the concrete
environment (`n = 1` failure, then success): correct content written,
credited `0 + 2 + 3`, two network calls. -/
theorem c2_amended_witness :
    cexEnv.stopSet = false ∧
    (∀ ch ∈ cexEnv.chunks, ch ≠ []) ∧
    (∀ t, t < 1 → cexEnv.attemptFail t = some ((fun _ => 1) t)) ∧
    cexEnv.attemptFail 1 = none ∧
    (1 : ℕ) ≤ 5 ∧
    ((do_part_download cexEnv 0 5 0 st0).1 = .ret ∧
     (∀ j, j < totalLen cexEnv →
       (do_part_download cexEnv 0 5 0 st0).2.file (0 + j) = cexEnv.chunks.flatten[j]?) ∧
     (do_part_download cexEnv 0 5 0 st0).2.credited =
       st0.credited + (∑ t in Finset.range 1, creditTake cexEnv ((fun _ => 1) t)) +
         totalLen cexEnv ∧
     (do_part_download cexEnv 0 5 0 st0).2.netCalls = st0.netCalls + 1 + 1) :=
  ⟨rfl, by decide, by decide, rfl, by decide,
    c2_amended cexEnv 0 5 1 (fun _ => 1) st0 rfl (by decide) (by decide) rfl (by decide)⟩

/-! ## Cancellation flag: `stop_event` (a `multiprocessing.Manager().Event()`)

The program's call sites on the shared event are:
`stop_event.is_set()` (worker lines 91, 112, 124, 137; monitor line 190)
and `stop_event.set()` (monitor line 205; `main` lines 329, 333, 342, 365).
`stop_event.clear()` — the only `Event` operation that can turn the flag
back off — appears nowhere.  An execution is modelled as an arbitrary
interleaving (trace) of operations drawn from the set actually used. -/

/-- The `multiprocessing.Event` API surface relevant to the flag's value. -/
inductive EventOp where
  | set
  | clear
  | isSet
deriving DecidableEq

/-- Effect of one event operation on the flag. -/
def eventApply (b : Bool) : EventOp → Bool
  | .set => true
  | .clear => false
  | .isSet => b

/-- The operations the program ever invokes on `stop_event`: `set` and
`is_set`, never `clear`. -/
def usedEventOps : List EventOp := [.set, .isSet]

/-- Number of false→true transitions of the flag along a trace. -/
def countRises : Bool → List EventOp → ℕ
  | _, [] => 0
  | b, op :: rest =>
    (if b = false ∧ eventApply b op = true then 1 else 0) + countRises (eventApply b op) rest

/-- Number of true→false transitions of the flag along a trace. -/
def countFalls : Bool → List EventOp → ℕ
  | _, [] => 0
  | b, op :: rest =>
    (if b = true ∧ eventApply b op = false then 1 else 0) + countFalls (eventApply b op) rest

/-- Once the flag is true, a trace of the program's operations produces no
further transitions in either direction. -/
theorem counts_from_true (tr : List EventOp) (h : ∀ op ∈ tr, op ∈ usedEventOps) :
    countFalls true tr = 0 ∧ countRises true tr = 0 := by
  induction tr with
  | nil => exact ⟨rfl, rfl⟩
  | cons op rest ih =>
    have hop : op ∈ usedEventOps := h op (by simp)
    have hrest : ∀ o ∈ rest, o ∈ usedEventOps := fun o ho => h o (by simp [ho])
    obtain ⟨f, r⟩ := ih hrest
    have happ : eventApply true op = true := by
      cases op with
      | set => rfl
      | isSet => rfl
      | clear => simp [usedEventOps] at hop
    rw [countFalls, countRises, happ]
    simp [f, r]

/-- C9: along every interleaving of the operations the worker, aggregator
and coordinator actually perform on `stop_event`, the flag never
transitions back to false and transitions false→true at most once. -/
theorem c9_flag_monotone (tr : List EventOp)
    (h : ∀ op ∈ tr, op ∈ usedEventOps) (b : Bool) :
    countFalls b tr = 0 ∧ countRises b tr ≤ 1 := by
  induction tr generalizing b with
  | nil => exact ⟨rfl, by simp [countRises]⟩
  | cons op rest ih =>
    have hop : op ∈ usedEventOps := h op (by simp)
    have hrest : ∀ o ∈ rest, o ∈ usedEventOps := fun o ho => h o (by simp [ho])
    cases op with
    | clear => simp [usedEventOps] at hop
    | isSet =>
      obtain ⟨f, r⟩ := ih hrest b
      rw [countFalls, countRises]
      cases b <;> simp [eventApply, f, r]
    | set =>
      obtain ⟨f, r⟩ := counts_from_true rest hrest
      rw [countFalls, countRises]
      cases b <;> simp [eventApply, f, r]

/-- C9 witness: a concrete trace with two `set` calls and interleaved
checks — no fall, at most one rise. -/
theorem c9_flag_monotone_witness :
    (∀ op ∈ ([.isSet, .set, .isSet, .set] : List EventOp), op ∈ usedEventOps) ∧
    countFalls false [.isSet, .set, .isSet, .set] = 0 ∧
    countRises false [.isSet, .set, .isSet, .set] ≤ 1 :=
  ⟨by decide, c9_flag_monotone [.isSet, .set, .isSet, .set] (by decide) false⟩

end S3MPDownload
